import Mathlib

set_option maxRecDepth 100000

namespace Bitea

/-! Shallow embedding of the bitea blockchain core
    (src/backend/blockchain/Transaction.h, Block.h, Blockchain.h).

    Machine integers of the source (int, time_t, size_t) are modelled as
    Int / Nat; the values arising in the modelled scope stay far below any
    overflow boundary, and no claim depends on wraparound.  Wall-clock reads
    (std::time(nullptr)) become an explicit parameter called now.  The
    unbounded Proof-of-Work loop becomes a fuel-indexed function returning
    Option: none models a search that has not yet terminated within the
    given number of iterations. -/

/-! SHA-256, modelling the OpenSSL SHA256_Init / Update / Final calls in
    Block::sha256 together with its hex-formatting loop.  All arithmetic is
    on Nat with explicit reduction modulo 2^32. -/

/-- Reduce to an unsigned 32-bit value. -/
def w32 (n : Nat) : Nat := n % 4294967296

/-- Right rotation of a 32-bit word. -/
def rotr (n x : Nat) : Nat := w32 ((x >>> n) ||| (x <<< (32 - n)))

/-- The 64 SHA-256 round constants (FIPS 180-4, written in decimal). -/
def shaK : List Nat :=
  [1116352408, 1899447441, 3049323471, 3921009573, 961987163,
   1508970993, 2453635748, 2870763221, 3624381080, 310598401,
   607225278, 1426881987, 1925078388, 2162078206, 2614888103,
   3248222580, 3835390401, 4022224774, 264347078, 604807628,
   770255983, 1249150122, 1555081692, 1996064986, 2554220882,
   2821834349, 2952996808, 3210313671, 3336571891, 3584528711,
   113926993, 338241895, 666307205, 773529912, 1294757372,
   1396182291, 1695183700, 1986661051, 2177026350, 2456956037,
   2730485921, 2820302411, 3259730800, 3345764771, 3516065817,
   3600352804, 4094571909, 275423344, 430227734, 506948616,
   659060556, 883997877, 958139571, 1322822218, 1537002063,
   1747873779, 1955562222, 2024104815, 2227730452, 2361852424,
   2428436474, 2756734187, 3204031479, 3329325298]

/-- The SHA-256 initial state (FIPS 180-4, written in decimal). -/
def shaH0 : List Nat :=
  [1779033703, 3144134277, 1013904242, 2773480762,
   1359893119, 2600822924, 528734635, 1541459225]

def bigSigma0 (x : Nat) : Nat := rotr 2 x ^^^ rotr 13 x ^^^ rotr 22 x

def bigSigma1 (x : Nat) : Nat := rotr 6 x ^^^ rotr 11 x ^^^ rotr 25 x

def smallSigma0 (x : Nat) : Nat := rotr 7 x ^^^ rotr 18 x ^^^ (x >>> 3)

def smallSigma1 (x : Nat) : Nat := rotr 17 x ^^^ rotr 19 x ^^^ (x >>> 10)

def chV (x y z : Nat) : Nat := (x &&& y) ^^^ ((x ^^^ 0xffffffff) &&& z)

def majV (x y z : Nat) : Nat := (x &&& y) ^^^ (x &&& z) ^^^ (y &&& z)

/-- Big-endian 8-byte rendering of the message bit length. -/
def be64 (n : Nat) : List Nat :=
  [n / 72057594037927936 % 256, n / 281474976710656 % 256, n / 1099511627776 % 256,
   n / 4294967296 % 256, n / 16777216 % 256, n / 65536 % 256, n / 256 % 256, n % 256]

/-- SHA-256 padding: a 0x80 byte, zeros to 56 mod 64, then the bit length. -/
def padMessage (msg : List Nat) : List Nat :=
  msg ++ 128 :: List.replicate ((120 - (msg.length + 1) % 64) % 64) 0 ++ be64 (msg.length * 8)

/-- Split a list into 64-byte chunks; structural recursion on a fuel bound
    so the definition reduces computationally (a nonempty list loses at
    least one element per round, so fuel = length always suffices). -/
def chunk64Fuel : Nat → List Nat → List (List Nat)
  | 0, _ => []
  | _ + 1, [] => []
  | fuel + 1, x :: xs => ((x :: xs).take 64) :: chunk64Fuel fuel (xs.drop 63)

/-- Split the padded message into 64-byte chunks. -/
def chunk64 (l : List Nat) : List (List Nat) := chunk64Fuel l.length l

/-- Group 4 big-endian bytes into one 32-bit word. -/
def bytesToWords : List Nat → List Nat
  | a :: b :: c :: d :: rest => (a * 16777216 + b * 65536 + c * 256 + d) :: bytesToWords rest
  | _ => []

/-- Extend the 16-word message schedule by n further words. -/
def extendSchedule : Nat → List Nat → List Nat
  | 0, w => w
  | n + 1, w =>
      extendSchedule n (w ++ [w32 (smallSigma1 (w.getD (w.length - 2) 0) + w.getD (w.length - 7) 0 +
        smallSigma0 (w.getD (w.length - 15) 0) + w.getD (w.length - 16) 0)])

/-- One round of the SHA-256 compression function on the 8-word state. -/
def compressStep (st : List Nat) (kw : Nat × Nat) : List Nat :=
  match st with
  | [a, b, c, d, e, f, g, h] =>
      let t1 := w32 (h + bigSigma1 e + chV e f g + kw.1 + kw.2)
      let t2 := w32 (bigSigma0 a + majV a b c)
      [w32 (t1 + t2), a, b, c, w32 (d + t1), e, f, g]
  | other => other

/-- Pointwise 32-bit addition of two states. -/
def addW : List Nat → List Nat → List Nat
  | a :: as, b :: bs => w32 (a + b) :: addW as bs
  | _, _ => []

/-- Process one 64-byte chunk. -/
def compressChunk (h : List Nat) (chunk : List Nat) : List Nat :=
  addW h ((shaK.zip (extendSchedule 48 (bytesToWords chunk))).foldl compressStep h)

/-- SHA-256 digest of a byte list, as 8 32-bit words. -/
def sha256Words (msg : List Nat) : List Nat :=
  let hf := (chunk64 (padMessage msg)).foldl compressChunk shaH0
  [hf.getD 0 0, hf.getD 1 0, hf.getD 2 0, hf.getD 3 0,
   hf.getD 4 0, hf.getD 5 0, hf.getD 6 0, hf.getD 7 0]

/-- Lower-case hex digit, as in the std::hex formatting of Block::sha256. -/
def hexDigit (n : Nat) : Char := if n < 10 then Char.ofNat (48 + n) else Char.ofNat (87 + n)

/-- The 8 hex characters of one 32-bit word (big-endian, two per byte). -/
def wordToHex (w : Nat) : List Char :=
  [hexDigit (w / 268435456 % 16), hexDigit (w / 16777216 % 16), hexDigit (w / 1048576 % 16),
   hexDigit (w / 65536 % 16), hexDigit (w / 4096 % 16), hexDigit (w / 256 % 16),
   hexDigit (w / 16 % 16), hexDigit (w % 16)]

/-- UTF-8 bytes of one character (data.c_str() hands the hash raw UTF-8 bytes). -/
def utf8Bytes (c : Char) : List Nat :=
  let n := c.toNat
  if n < 128 then [n]
  else if n < 2048 then [192 + n / 64, 128 + n % 64]
  else if n < 65536 then [224 + n / 4096, 128 + n / 64 % 64, 128 + n % 64]
  else [240 + n / 262144, 128 + n / 4096 % 64, 128 + n / 64 % 64, 128 + n % 64]

/-- Bytes of a string. -/
def strBytes (s : String) : List Nat := (s.data.map utf8Bytes).flatten

/-- Block::sha256 - SHA-256 of a string rendered as a 64-character
    lowercase hex string. -/
def sha256 (s : String) : String := String.mk ((sha256Words (strBytes s)).map wordToHex).flatten

/-! The transaction model (src/backend/blockchain/Transaction.h). -/

/-- The TransactionType enum; typeCode gives the static_cast int value. -/
inductive TransactionType
  | POST
  | LIKE
  | COMMENT
  | FOLLOW
  | USER_REGISTRATION
  | TOPIC_CREATE
  | TOPIC_COMMENT
  | TOPIC_LIKE
  | TOPIC_RESHARE
deriving DecidableEq, Repr, Inhabited

/-- The integer value of each enumerator (declaration order, from 0). -/
def typeCode : TransactionType → Nat
  | .POST => 0
  | .LIKE => 1
  | .COMMENT => 2
  | .FOLLOW => 3
  | .USER_REGISTRATION => 4
  | .TOPIC_CREATE => 5
  | .TOPIC_COMMENT => 6
  | .TOPIC_LIKE => 7
  | .TOPIC_RESHARE => 8

structure Transaction where
  id : String
  sender : String
  type : TransactionType
  data : String
  timestamp : Int
deriving DecidableEq, Repr, Inhabited

/-- Transaction::generateId - "sender-typeCode-timestamp". -/
def generateId (sender : String) (type : TransactionType) (timestamp : Int) : String :=
  sender ++ "-" ++ toString (typeCode type) ++ "-" ++ toString timestamp

/-- The Transaction constructor; now stands for the std::time(nullptr) read. -/
def Transaction.make (sender : String) (type : TransactionType) (data : String)
    (now : Int) : Transaction :=
  { id := generateId sender type now
    sender := sender
    type := type
    data := data
    timestamp := now }

/-- Transaction::serialize - sender, type code, timestamp, data concatenated
    with no separators (id deliberately excluded). -/
def Transaction.serialize (t : Transaction) : String :=
  t.sender ++ toString (typeCode t.type) ++ toString t.timestamp ++ t.data

/-! The block model (src/backend/blockchain/Block.h). -/

structure Block where
  index : Int
  previousHash : String
  hash : String
  timestamp : Int
  transactions : List Transaction
  nonce : Int
  difficulty : Nat
deriving DecidableEq, Repr, Inhabited

/-- Block::transactionsToString - serializations concatenated in stored order. -/
def Block.transactionsToString (b : Block) : String :=
  String.join (b.transactions.map Transaction.serialize)

/-- Block::calculateHash - SHA-256 of index, previousHash, timestamp,
    serialized transactions and nonce concatenated in this order. -/
def Block.calculateHash (b : Block) : String :=
  sha256 (toString b.index ++ b.previousHash ++ toString b.timestamp ++
    b.transactionsToString ++ toString b.nonce)

/-- The mining target: the string of difficulty zero characters. -/
def targetStr (d : Nat) : String := String.mk (List.replicate d '0')

/-- hash.substr(0, n): the first n characters, or the whole string when n
    exceeds its length (std::string::substr clamps the count). -/
def takeChars (s : String) (n : Nat) : String := String.mk (s.data.take n)

/-- The Block constructor: stores the fields, sets timestamp to now,
    nonce to 0, then computes and stores the initial hash. -/
def Block.make (index : Int) (previousHash : String) (transactions : List Transaction)
    (difficulty : Nat) (now : Int) : Block :=
  let b : Block :=
    { index := index
      previousHash := previousHash
      hash := ""
      timestamp := now
      transactions := transactions
      nonce := 0
      difficulty := difficulty }
  { b with hash := b.calculateHash }

/-- One iteration of the Block::mineBlock do-while body: increment the
    nonce, then recompute and store the hash. -/
def mineStep (b : Block) : Block :=
  let b1 : Block := { b with nonce := b.nonce + 1 }
  { b1 with hash := b1.calculateHash }

/-- Block::mineBlock as a fuel-indexed search.  The source loop is
    unbounded; mineBlockFuel fuel b = none models a search still running
    after fuel iterations, some b1 models the loop returning with b1.
    The loop is do-while: the nonce is incremented and the hash recomputed
    before the first difficulty test. -/
def mineBlockFuel : Nat → Block → Option Block
  | 0, _ => none
  | fuel + 1, b =>
      let b1 := mineStep b
      if takeChars b1.hash b1.difficulty = targetStr b1.difficulty then some b1
      else mineBlockFuel fuel b1

/-- Block::isValid - hash has the required leading zeros and equals a fresh
    recomputation. -/
def Block.isValid (b : Block) : Bool :=
  (takeChars b.hash b.difficulty == targetStr b.difficulty) && (b.hash == b.calculateHash)

/-! The blockchain aggregate (src/backend/blockchain/Blockchain.h). -/

structure Blockchain where
  chain : List Block
  pendingTransactions : List Transaction
  difficulty : Nat
  miningReward : Int
  maxTransactionsPerBlock : Nat
deriving DecidableEq, Repr, Inhabited

/-- The fixed payload of the genesis transaction. -/
def genesisData : String :=
  "\x7b\"message\":\"Genesis Block - Bitea Social Media Blockchain\"\x7d"

/-- Blockchain::createGenesisBlock - block 0 with previousHash "0" holding
    the single SYSTEM / USER_REGISTRATION transaction, mined inline. -/
def createGenesisBlock (difficulty : Nat) (now : Int) (fuel : Nat) : Option Block :=
  mineBlockFuel fuel
    (Block.make 0 "0" [Transaction.make "SYSTEM" .USER_REGISTRATION genesisData now]
      difficulty now)

/-- The Blockchain constructor: mines the genesis block and starts the chain
    with it; the pending pool starts empty. -/
def Blockchain.make (difficulty : Nat) (maxTxPerBlock : Nat) (now : Int)
    (fuel : Nat) : Option Blockchain :=
  match createGenesisBlock difficulty now fuel with
  | none => none
  | some g =>
      some { chain := [g]
             pendingTransactions := []
             difficulty := difficulty
             miningReward := 100
             maxTransactionsPerBlock := maxTxPerBlock }

/-- Blockchain::getLatestBlock - chain.back(); none models the undefined
    call on an empty chain, which no reachable state produces. -/
def Blockchain.getLatestBlock (bc : Blockchain) : Option Block := bc.chain.getLast?

/-- Blockchain::minePendingTransactions - early return when the pool is
    empty; otherwise take min(maxTransactionsPerBlock, pool size) entries
    from the front, build a block at index chain.size() linked to the tip,
    mine it, append it, and erase exactly those entries from the front. -/
def minePendingTransactions (bc : Blockchain) (now : Int) (fuel : Nat) : Option Blockchain :=
  if bc.pendingTransactions.isEmpty then some bc
  else
    let txCount := min bc.maxTransactionsPerBlock bc.pendingTransactions.length
    let blockTransactions := bc.pendingTransactions.take txCount
    match bc.getLatestBlock with
    | none => none
    | some tip =>
        match mineBlockFuel fuel
            (Block.make (bc.chain.length : Int) tip.hash blockTransactions bc.difficulty now) with
        | none => none
        | some mined =>
            some { bc with
                   chain := bc.chain ++ [mined]
                   pendingTransactions := bc.pendingTransactions.drop txCount }

/-- Blockchain::minePendingTransactionsPublic - lock acquisition plus the
    internal pass; sequentially it is the internal pass. -/
def minePendingTransactionsPublic (bc : Blockchain) (now : Int) (fuel : Nat) : Option Blockchain :=
  minePendingTransactions bc now fuel

/-- Blockchain::addTransaction - push to the back of the pool, then run a
    mining pass when the pool has reached maxTransactionsPerBlock. -/
def addTransaction (bc : Blockchain) (tx : Transaction) (now : Int) (fuel : Nat) :
    Option Blockchain :=
  let bc1 : Blockchain := { bc with pendingTransactions := bc.pendingTransactions ++ [tx] }
  if bc1.pendingTransactions.length ≥ bc1.maxTransactionsPerBlock then
    minePendingTransactions bc1 now fuel
  else some bc1

/-- The loop body of Blockchain::isChainValid, carrying the previous block. -/
def isChainValidFrom : Block → List Block → Bool
  | _, [] => true
  | prev, b :: rest => b.isValid && (b.previousHash == prev.hash) && isChainValidFrom b rest

/-- Blockchain::isChainValid - checks every block from index 1 on; the
    genesis block itself is never re-verified. -/
def Blockchain.isChainValid (bc : Blockchain) : Bool :=
  match bc.chain with
  | [] => true
  | g :: rest => isChainValidFrom g rest

/-- The single transaction of the genesis block. -/
def genesisTransaction (bc : Blockchain) : Option Transaction :=
  match bc.chain with
  | [] => none
  | b :: _ => b.transactions.head?

/-- States reachable through the public interface: construction, then any
    sequence of addTransaction / minePendingTransactionsPublic calls. -/
inductive Reachable : Blockchain → Prop
  | init (difficulty maxTxPerBlock : Nat) (now : Int) (fuel : Nat) (bc : Blockchain) :
      Blockchain.make difficulty maxTxPerBlock now fuel = some bc → Reachable bc
  | add (bc : Blockchain) (tx : Transaction) (now : Int) (fuel : Nat) (bc' : Blockchain) :
      Reachable bc → addTransaction bc tx now fuel = some bc' → Reachable bc'
  | mine (bc : Blockchain) (now : Int) (fuel : Nat) (bc' : Blockchain) :
      Reachable bc → minePendingTransactionsPublic bc now fuel = some bc' → Reachable bc'

/-- The chain-link relation between consecutive blocks. -/
def linkedR (a b : Block) : Prop := b.previousHash = a.hash

/-! Concrete sample states used by the witness theorems. -/

/-- A freshly constructed (unmined) block at difficulty 0. -/
def sampleBlock : Block := Block.make 0 "0" [] 0 0

/-- The sample block after one mining iteration. -/
def minedSample : Block := mineStep sampleBlock

/-- A block whose difficulty exceeds the 64 hex characters of a SHA-256
    digest: its proof-of-work target can never be met. -/
def blockD65 : Block := Block.make 0 "0" [] 65 0

/-- The sample block rebuilt at difficulty 3: every hash input field agrees
    with sampleBlock, only the difficulty differs. -/
def blockDiff3 : Block := Block.make 0 "0" [] 3 0

/-- The hash the block would have at a given nonce. -/
def nonceHash (b : Block) (n : Int) : String := Block.calculateHash { b with nonce := n }

/-- The proof-of-work condition the mining loop tests at a given nonce. -/
abbrev meetsTarget (b : Block) (n : Int) : Prop :=
  takeChars (nonceHash b n) b.difficulty = targetStr b.difficulty

/-- A ledger built at clock second 0 with difficulty 0 and room for 10
    transactions per block. -/
def bcA : Blockchain := (Blockchain.make 0 10 0 1).getD default

/-- The same constructor arguments as bcA, run at clock second 1. -/
def bcB : Blockchain := (Blockchain.make 0 10 1 1).getD default

/-- The tip of the sample ledger. -/
def tipA : Block := bcA.chain.getLast?.getD default

/-- The sample ledger with two transactions sitting in the pool. -/
def bcPend : Blockchain :=
  { bcA with
    pendingTransactions := [Transaction.make "alice" .POST "p1" 3,
      Transaction.make "bob" .LIKE "p2" 4] }

/-- The sample ledger after one mining pass over its two-element pool. -/
def bcPendMined : Blockchain := (minePendingTransactions bcPend 9 1).getD default

/-! Helper lemmas about the hash and the mining loop. -/

theorem wordToHex_length (w : Nat) : (wordToHex w).length = 8 := rfl

theorem sha256_data_length (s : String) : (sha256 s).data.length = 64 := by
  simp [sha256, sha256Words, wordToHex]

theorem calculateHash_hash_update (b : Block) (h : String) :
    Block.calculateHash { b with hash := h } = b.calculateHash := rfl

theorem mineStep_index (b : Block) : (mineStep b).index = b.index := rfl

theorem mineStep_previousHash (b : Block) : (mineStep b).previousHash = b.previousHash := rfl

theorem mineStep_timestamp (b : Block) : (mineStep b).timestamp = b.timestamp := rfl

theorem mineStep_transactions (b : Block) : (mineStep b).transactions = b.transactions := rfl

theorem mineStep_difficulty (b : Block) : (mineStep b).difficulty = b.difficulty := rfl

theorem mineStep_nonce (b : Block) : (mineStep b).nonce = b.nonce + 1 := rfl

theorem mineStep_hash (b : Block) : (mineStep b).hash = (mineStep b).calculateHash := rfl

/-- Everything mineBlock leaves alone, plus what it establishes: the mined
    block keeps index, previous hash, timestamp, transactions and
    difficulty, its nonce has advanced at least once, its stored hash is
    the fresh recomputation at the final nonce, and the difficulty target
    holds. -/
theorem mineBlockFuel_some (fuel : Nat) (b b' : Block)
    (h : mineBlockFuel fuel b = some b') :
    b'.index = b.index ∧ b'.previousHash = b.previousHash ∧
    b'.timestamp = b.timestamp ∧ b'.transactions = b.transactions ∧
    b'.difficulty = b.difficulty ∧ b.nonce + 1 ≤ b'.nonce ∧
    b'.hash = b'.calculateHash ∧
    takeChars b'.hash b'.difficulty = targetStr b'.difficulty := by
  induction fuel generalizing b with
  | zero => simp [mineBlockFuel] at h
  | succ n ih =>
      simp only [mineBlockFuel] at h
      split at h
      case isTrue hc =>
        cases h
        refine ⟨rfl, rfl, rfl, rfl, rfl, by simp [mineStep_nonce], mineStep_hash b, hc⟩
      case isFalse hc =>
        obtain ⟨h1, h2, h3, h4, h5, h6, h7, h8⟩ := ih (mineStep b) h
        refine ⟨h1, h2, h3, h4, h5, ?_, h7, h8⟩
        rw [mineStep_nonce] at h6
        omega

/-- A met difficulty target pins the leading characters: the first
    difficulty characters are all zeros and the hash is at least that long. -/
theorem takeChars_eq_target {s : String} {d : Nat} (h : takeChars s d = targetStr d) :
    s.data.take d = List.replicate d '0' ∧ d ≤ s.data.length := by
  have hd : s.data.take d = List.replicate d '0' := congrArg String.data h
  refine ⟨hd, ?_⟩
  have hlen := congrArg List.length hd
  rw [List.length_take, List.length_replicate] at hlen
  omega

/-- When the difficulty exceeds the 64 hex characters of the digest, the
    do-while condition can never be met and the search never returns. -/
theorem mineBlockFuel_highDifficulty (fuel : Nat) (b : Block) (hd : 64 < b.difficulty) :
    mineBlockFuel fuel b = none := by
  induction fuel generalizing b with
  | zero => rfl
  | succ n ih =>
      have hdm : (mineStep b).difficulty = b.difficulty := rfl
      have hne : ¬ (takeChars (mineStep b).hash (mineStep b).difficulty =
          targetStr (mineStep b).difficulty) := by
        intro hc
        obtain ⟨-, hle⟩ := takeChars_eq_target hc
        have h64 : (mineStep b).hash.data.length = 64 := sha256_data_length _
        rw [hdm] at hle
        omega
      simp only [mineBlockFuel]
      rw [if_neg hne]
      exact ih (mineStep b) (by rw [hdm]; exact hd)

/-- C2: for every block and difficulty, when mineBlock returns, the stored
    hash has at least difficulty leading zero hex characters and equals a
    fresh recomputation of calculateHash on the block's final fields, so
    isValid returns true immediately after mining. -/
theorem C2_mine_postcondition (fuel : Nat) (b b' : Block)
    (h : mineBlockFuel fuel b = some b') :
    b'.hash.data.take b'.difficulty = List.replicate b'.difficulty '0' ∧
    b'.difficulty ≤ b'.hash.data.length ∧
    b'.hash = b'.calculateHash ∧
    b'.isValid = true := by
  obtain ⟨-, -, -, -, -, -, h7, h8⟩ := mineBlockFuel_some fuel b b' h
  obtain ⟨htake, hle⟩ := takeChars_eq_target h8
  refine ⟨htake, hle, h7, ?_⟩
  simp only [Block.isValid]
  rw [h8, h7]
  simp

/-- Witness for C2: a concrete difficulty-0 block mined with one unit of
    fuel satisfies the mining postcondition. -/
theorem C2_witness :
    minedSample.hash.data.take minedSample.difficulty =
      List.replicate minedSample.difficulty '0' ∧
    minedSample.difficulty ≤ minedSample.hash.data.length ∧
    minedSample.hash = minedSample.calculateHash ∧
    minedSample.isValid = true :=
  C2_mine_postcondition 1 sampleBlock minedSample (by decide)

/-- C9: the do-while loop increments the nonce before the first test, so a
    freshly constructed block (nonce 0) ends mining with nonce at least 1,
    the final hash is the recomputation at that final nonce, and at
    difficulty 0 mining performs exactly one increment. -/
theorem C9_nonce_positive (i : Int) (ph : String) (txs : List Transaction)
    (d : Nat) (now : Int) (fuel : Nat) (b' : Block)
    (h : mineBlockFuel fuel (Block.make i ph txs d now) = some b') :
    1 ≤ b'.nonce ∧ b'.hash = b'.calculateHash ∧ (d = 0 → b'.nonce = 1) := by
  obtain ⟨-, -, -, -, -, h6, h7, -⟩ := mineBlockFuel_some _ _ _ h
  have hn0 : (Block.make i ph txs d now).nonce = 0 := rfl
  rw [hn0] at h6
  refine ⟨by omega, h7, ?_⟩
  intro hd0
  subst hd0
  cases fuel with
  | zero => simp [mineBlockFuel] at h
  | succ n =>
      simp only [mineBlockFuel] at h
      split at h
      case isTrue hc =>
        cases h
        simp [mineStep_nonce, hn0]
      case isFalse hc => exact absurd rfl hc

/-- Witness for C9 at the concrete difficulty-0 sample block. -/
theorem C9_witness :
    1 ≤ minedSample.nonce ∧ minedSample.hash = minedSample.calculateHash ∧
    ((0:Nat) = 0 → minedSample.nonce = 1) :=
  C9_nonce_positive 0 "0" [] 0 0 1 minedSample (by decide)

/-- C8: calculateHash does not commit to the difficulty field - two blocks
    agreeing on index, previous hash, timestamp, transactions and nonce
    hash identically whatever their difficulties, so a difficulty-only
    change is invisible to the hash-recomputation half of isValid. -/
theorem C8_hash_ignores_difficulty (b1 b2 : Block)
    (h1 : b1.index = b2.index) (h2 : b1.previousHash = b2.previousHash)
    (h3 : b1.timestamp = b2.timestamp) (h4 : b1.transactions = b2.transactions)
    (h5 : b1.nonce = b2.nonce) :
    b1.calculateHash = b2.calculateHash ∧
    ((b1.hash = b2.hash) →
      ((b1.hash = b1.calculateHash) ↔ (b2.hash = b2.calculateHash))) := by
  have hc : b1.calculateHash = b2.calculateHash := by
    simp [Block.calculateHash, Block.transactionsToString, h1, h2, h3, h4, h5]
  exact ⟨hc, fun hh => by rw [hh, hc]⟩

/-- Witness for C8: two concrete blocks differing only in difficulty. -/
theorem C8_witness :
    sampleBlock.calculateHash = blockDiff3.calculateHash ∧
    ((sampleBlock.hash = blockDiff3.hash) →
      ((sampleBlock.hash = sampleBlock.calculateHash) ↔
       (blockDiff3.hash = blockDiff3.calculateHash))) :=
  C8_hash_ignores_difficulty sampleBlock blockDiff3 rfl rfl rfl rfl rfl

/-- The mining loop step leaves the would-be hash at any nonce alone. -/
theorem nonceHash_mineStep (b : Block) (n : Int) :
    nonceHash (mineStep b) n = nonceHash b n := rfl

/-- Fuel k + 1 suffices for the search whenever the nonce k + 1 steps ahead
    meets the target. -/
theorem mineBlockFuel_of_meets (k : Nat) :
    ∀ b : Block, meetsTarget b (b.nonce + (k : Int) + 1) →
    ∃ b', mineBlockFuel (k + 1) b = some b' := by
  induction k with
  | zero =>
      intro b hm
      have hc : takeChars (mineStep b).hash (mineStep b).difficulty =
          targetStr (mineStep b).difficulty := by
        have hm' : meetsTarget b (b.nonce + 1) := by simpa using hm
        exact hm'
      exact ⟨mineStep b, by simp only [mineBlockFuel]; rw [if_pos hc]⟩
  | succ j ih =>
      intro b hm
      by_cases hc : takeChars (mineStep b).hash (mineStep b).difficulty =
          targetStr (mineStep b).difficulty
      · exact ⟨mineStep b, by simp only [mineBlockFuel]; rw [if_pos hc]⟩
      · have hm' : meetsTarget (mineStep b) ((mineStep b).nonce + (j : Int) + 1) := by
          show meetsTarget b (b.nonce + 1 + (j : Int) + 1)
          have harg : b.nonce + 1 + (j : Int) + 1 = b.nonce + ((j : Int) + 1) + 1 := by ring
          have hcast : ((j + 1 : Nat) : Int) = (j : Int) + 1 := by push_cast; ring
          rw [harg, ← hcast]
          exact hm
        obtain ⟨b', hb'⟩ := ih (mineStep b) hm'
        exact ⟨b', by simp only [mineBlockFuel]; rw [if_neg hc]; exact hb'⟩

/-- C5 counterexample: mining does not always terminate.  At difficulty 65
    the target has 65 characters while every digest has 64, so the search
    never returns however much fuel it is given. -/
theorem C5_counterexample :
    ¬ ∃ (fuel : Nat) (b' : Block), mineBlockFuel fuel blockD65 = some b' := by
  rintro ⟨fuel, b', hb⟩
  rw [mineBlockFuel_highDifficulty fuel blockD65 (by decide)] at hb
  cases hb

/-- C5 (amended): the brute-force nonce search terminates whenever some
    later nonce value satisfies the difficulty target - within k iterations
    when the nonce k steps ahead satisfies it; for difficulty above the 64
    hex digest characters no nonce ever does, and mining runs forever. -/
theorem C5_mining_terminates (b : Block) (k : Nat) (hk : 1 ≤ k)
    (hmeet : meetsTarget b (b.nonce + (k : Int))) :
    ∃ b', mineBlockFuel k b = some b' := by
  obtain ⟨j, rfl⟩ : ∃ j, k = j + 1 := ⟨k - 1, by omega⟩
  apply mineBlockFuel_of_meets j b
  have hcast : b.nonce + ((j + 1 : Nat) : Int) = b.nonce + (j : Int) + 1 := by
    push_cast
    ring
  rwa [hcast] at hmeet

/-- Witness for the amended C5 at a concrete difficulty-0 block. -/
theorem C5_witness :
    (1 ≤ 1 ∧ meetsTarget sampleBlock (sampleBlock.nonce + ((1 : Nat) : Int))) ∧
    ∃ b', mineBlockFuel 1 sampleBlock = some b' :=
  ⟨⟨by decide, by decide⟩,
    C5_mining_terminates sampleBlock 1 (by decide) (by decide)⟩

/-! Lemmas about the ledger operations. -/

theorem Block.make_index (i : Int) (ph : String) (txs : List Transaction)
    (d : Nat) (now : Int) : (Block.make i ph txs d now).index = i := rfl

theorem Block.make_previousHash (i : Int) (ph : String) (txs : List Transaction)
    (d : Nat) (now : Int) : (Block.make i ph txs d now).previousHash = ph := rfl

theorem Block.make_transactions (i : Int) (ph : String) (txs : List Transaction)
    (d : Nat) (now : Int) : (Block.make i ph txs d now).transactions = txs := rfl

theorem Block.make_nonce (i : Int) (ph : String) (txs : List Transaction)
    (d : Nat) (now : Int) : (Block.make i ph txs d now).nonce = 0 := rfl

/-- Case analysis on a returning internal mining pass: either the pool was
    empty and the state is untouched, or the pool was non-empty and the
    state is the old one with a freshly mined block appended and the drained
    prefix removed from the pool. -/
theorem minePending_elim {bc bc' : Blockchain} {now : Int} {fuel : Nat}
    (h : minePendingTransactions bc now fuel = some bc') :
    (bc.pendingTransactions = [] ∧ bc' = bc) ∨
    (bc.pendingTransactions ≠ [] ∧ ∃ tip mined,
      bc.chain.getLast? = some tip ∧
      mineBlockFuel fuel (Block.make (bc.chain.length : Int) tip.hash
        (bc.pendingTransactions.take
          (min bc.maxTransactionsPerBlock bc.pendingTransactions.length))
        bc.difficulty now) = some mined ∧
      bc' = { bc with
              chain := bc.chain ++ [mined]
              pendingTransactions := bc.pendingTransactions.drop
                (min bc.maxTransactionsPerBlock bc.pendingTransactions.length) }) := by
  simp only [minePendingTransactions, Blockchain.getLatestBlock] at h
  split at h
  case isTrue hemp =>
    exact Or.inl ⟨by simpa using hemp, (Option.some.inj h).symm⟩
  case isFalse hemp =>
    right
    refine ⟨by simpa using hemp, ?_⟩
    split at h
    next hg => simp at h
    next tip hg =>
      split at h
      next hm => simp at h
      next mined hm =>
        exact ⟨tip, mined, hg, hm, (Option.some.inj h).symm⟩

/-- Case analysis on a returning addTransaction: the transaction goes to
    the back of the pool, and a mining pass runs exactly when the grown
    pool has reached the per-block capacity. -/
theorem addTransaction_elim {bc bc' : Blockchain} {tx : Transaction} {now : Int} {fuel : Nat}
    (h : addTransaction bc tx now fuel = some bc') :
    (bc.pendingTransactions.length + 1 < bc.maxTransactionsPerBlock ∧
      bc' = { bc with pendingTransactions := bc.pendingTransactions ++ [tx] }) ∨
    (bc.maxTransactionsPerBlock ≤ bc.pendingTransactions.length + 1 ∧
      minePendingTransactions
        { bc with pendingTransactions := bc.pendingTransactions ++ [tx] } now fuel =
        some bc') := by
  simp only [addTransaction] at h
  split at h
  next hge =>
    right
    refine ⟨by simpa using hge, h⟩
  next hlt =>
    left
    refine ⟨by simpa using hlt, (Option.some.inj h).symm⟩

/-- Appending a block whose stored previous hash is the tip's hash keeps
    the chain hash-linked. -/
theorem chain_linked_snoc {l : List Block} {b tip : Block}
    (hch : List.Chain' linkedR l) (hg : l.getLast? = some tip)
    (hpb : b.previousHash = tip.hash) : List.Chain' linkedR (l ++ [b]) := by
  rw [List.chain'_append]
  refine ⟨hch, List.chain'_singleton b, ?_⟩
  intro x hx y hy
  rw [hg] at hx
  simp only [Option.mem_def, Option.some.injEq, List.head?_cons] at hx hy
  subst hx
  subst hy
  exact hpb

/-- The state invariant of every reachable ledger: the chain is non-empty
    and hash-linked, and - when the per-block capacity is at least 1 - the
    pool stays strictly below that capacity. -/
theorem reachable_inv {bc : Blockchain} (h : Reachable bc) :
    bc.chain ≠ [] ∧ List.Chain' linkedR bc.chain ∧
    (1 ≤ bc.maxTransactionsPerBlock →
      bc.pendingTransactions.length < bc.maxTransactionsPerBlock) := by
  induction h with
  | init d m now fuel bc hmk =>
      simp only [Blockchain.make, createGenesisBlock] at hmk
      split at hmk
      · cases hmk
      next g hg =>
        injection hmk with hbc
        subst hbc
        refine ⟨by simp, List.chain'_singleton g, ?_⟩
        intro hmax
        simpa using hmax
  | add bc tx now fuel bc' hr hadd ih =>
      obtain ⟨hne, hch, hpend⟩ := ih
      rcases addTransaction_elim hadd with ⟨hlt, rfl⟩ | ⟨hge, hmine⟩
      · refine ⟨hne, hch, ?_⟩
        intro hmax
        simp only [List.length_append, List.length_cons, List.length_nil]
        omega
      · rcases minePending_elim hmine with ⟨hemp, rfl⟩ | ⟨hpne, tip, mined, hg, hm, rfl⟩
        · exact absurd hemp (by simp)
        · obtain ⟨-, h2, -, -, -, -, -, -⟩ := mineBlockFuel_some _ _ _ hm
          rw [Block.make_previousHash] at h2
          refine ⟨by simp, chain_linked_snoc hch hg h2, ?_⟩
          intro hmax
          dsimp only at hmax ⊢
          simp only [List.length_drop, List.length_append, List.length_cons,
            List.length_nil] at hmax ⊢
          by_cases hm1 : 1 ≤ bc.maxTransactionsPerBlock
          · have := hpend hm1
            omega
          · omega
  | mine bc now fuel bc' hr hmine ih =>
      obtain ⟨hne, hch, hpend⟩ := ih
      rcases minePending_elim hmine with ⟨hemp, rfl⟩ | ⟨hpne, tip, mined, hg, hm, rfl⟩
      · exact ⟨hne, hch, hpend⟩
      · obtain ⟨-, h2, -, -, -, -, -, -⟩ := mineBlockFuel_some _ _ _ hm
        rw [Block.make_previousHash] at h2
        refine ⟨by simp, chain_linked_snoc hch hg h2, ?_⟩
        intro hmax
        dsimp only at hmax ⊢
        have := hpend hmax
        simp only [List.length_drop]
        omega

/-- C1: every reachable ledger state has a non-empty chain, and each block
    past the genesis stores as previous hash exactly the stored hash of the
    block before it. -/
theorem C1_chain_nonempty_linked (bc : Blockchain) (h : Reachable bc) :
    1 ≤ bc.chain.length ∧
    ∀ i, 0 < i → ∀ hi : i < bc.chain.length,
      (bc.chain.get ⟨i, hi⟩).previousHash =
        (bc.chain.get ⟨i - 1, by omega⟩).hash := by
  obtain ⟨hne, hch, -⟩ := reachable_inv h
  constructor
  · have := List.length_pos.mpr hne
    omega
  · intro i hi0 hi
    obtain ⟨j, rfl⟩ : ∃ j, i = j + 1 := ⟨i - 1, by omega⟩
    have hj : j < bc.chain.length - 1 := by omega
    exact (List.chain'_iff_get.mp hch) j hj

/-- Witness for C1 at a freshly constructed concrete ledger. -/
theorem C1_witness :
    1 ≤ bcA.chain.length ∧
    ∀ i, 0 < i → ∀ hi : i < bcA.chain.length,
      (bcA.chain.get ⟨i, hi⟩).previousHash =
        (bcA.chain.get ⟨i - 1, by omega⟩).hash :=
  C1_chain_nonempty_linked bcA (Reachable.init 0 10 0 1 bcA (by decide))

/-- C10: in every reachable state of a ledger whose per-block capacity is
    at least 1, the pending pool holds strictly fewer than
    maxTransactionsPerBlock transactions. -/
theorem C10_pool_below_capacity (bc : Blockchain) (h : Reachable bc)
    (hmax : 1 ≤ bc.maxTransactionsPerBlock) :
    bc.pendingTransactions.length < bc.maxTransactionsPerBlock :=
  (reachable_inv h).2.2 hmax

/-- Witness for C10 at a freshly constructed concrete ledger. -/
theorem C10_witness : bcA.pendingTransactions.length < bcA.maxTransactionsPerBlock :=
  C10_pool_below_capacity bcA (Reachable.init 0 10 0 1 bcA (by decide)) (by decide)

/-- C3: with capacity N at least 1 and a non-empty pool of size M, one
    internal mining pass appends exactly one block holding the first
    min(N, M) pool entries in order, drops exactly that prefix from the
    pool (no entry duplicated or lost), gives the block index chain.length
    and links it to the previous tip's hash. -/
theorem C3_drain_batch (bc : Blockchain) (now : Int) (fuel : Nat) (bc' : Blockchain)
    (tip : Block)
    (hpool : bc.pendingTransactions ≠ [])
    (htip : bc.chain.getLast? = some tip)
    (hmax : 1 ≤ bc.maxTransactionsPerBlock)
    (h : minePendingTransactions bc now fuel = some bc') :
    ∃ mined,
      bc'.chain = bc.chain ++ [mined] ∧
      mined.transactions = bc.pendingTransactions.take
        (min bc.maxTransactionsPerBlock bc.pendingTransactions.length) ∧
      bc'.pendingTransactions = bc.pendingTransactions.drop
        (min bc.maxTransactionsPerBlock bc.pendingTransactions.length) ∧
      mined.transactions ++ bc'.pendingTransactions = bc.pendingTransactions ∧
      mined.transactions.length =
        min bc.maxTransactionsPerBlock bc.pendingTransactions.length ∧
      1 ≤ mined.transactions.length ∧
      mined.index = (bc.chain.length : Int) ∧
      mined.previousHash = tip.hash := by
  rcases minePending_elim h with ⟨hemp, -⟩ | ⟨-, tip2, mined, hg, hm, rfl⟩
  · exact absurd hemp hpool
  · obtain rfl : tip2 = tip := Option.some.inj (hg.symm.trans htip)
    obtain ⟨h1, h2, -, h4, -, -, -, -⟩ := mineBlockFuel_some _ _ _ hm
    rw [Block.make_index] at h1
    rw [Block.make_previousHash] at h2
    rw [Block.make_transactions] at h4
    have hlen : 1 ≤ bc.pendingTransactions.length := by
      have := List.length_pos.mpr hpool
      omega
    refine ⟨mined, rfl, h4, rfl, ?_, ?_, ?_, h1, h2⟩
    · rw [h4]
      exact List.take_append_drop _ _
    · rw [h4, List.length_take]
      omega
    · rw [h4, List.length_take]
      omega

/-- Witness for C3: a concrete ledger with two pooled transactions and
    capacity 10 drains both into one freshly mined block. -/
theorem C3_witness :
    ∃ mined,
      bcPendMined.chain = bcPend.chain ++ [mined] ∧
      mined.transactions = bcPend.pendingTransactions.take
        (min bcPend.maxTransactionsPerBlock bcPend.pendingTransactions.length) ∧
      bcPendMined.pendingTransactions = bcPend.pendingTransactions.drop
        (min bcPend.maxTransactionsPerBlock bcPend.pendingTransactions.length) ∧
      mined.transactions ++ bcPendMined.pendingTransactions = bcPend.pendingTransactions ∧
      mined.transactions.length =
        min bcPend.maxTransactionsPerBlock bcPend.pendingTransactions.length ∧
      1 ≤ mined.transactions.length ∧
      mined.index = (bcPend.chain.length : Int) ∧
      mined.previousHash = tipA.hash :=
  C3_drain_batch bcPend 9 1 bcPendMined tipA (by decide) (by decide) (by decide)
    (by decide)

/-- C7: a mining pass over an empty pool (also through the public wrapper)
    returns the state unchanged; in general a returning pass either leaves
    the state untouched or has fully appended one block and drained the
    matching prefix of the pool. -/
theorem C7_mine_noop_or_full (bc : Blockchain) (now : Int) (fuel : Nat) (bc' : Blockchain)
    (h : minePendingTransactions bc now fuel = some bc') :
    minePendingTransactionsPublic bc now fuel = some bc' ∧
    (bc.pendingTransactions = [] → bc' = bc) ∧
    (bc.pendingTransactions ≠ [] → ∃ mined,
      bc'.chain = bc.chain ++ [mined] ∧
      bc'.pendingTransactions = bc.pendingTransactions.drop
        (min bc.maxTransactionsPerBlock bc.pendingTransactions.length)) := by
  refine ⟨h, ?_, ?_⟩
  · intro hemp
    rcases minePending_elim h with ⟨-, rfl⟩ | ⟨hpne, -⟩
    · rfl
    · exact absurd hemp hpne
  · intro hpne
    rcases minePending_elim h with ⟨hemp, -⟩ | ⟨-, tip, mined, hg, hm, rfl⟩
    · exact absurd hemp hpne
    · exact ⟨mined, rfl, rfl⟩

/-- Witness for C7 at a concrete ledger whose pool is empty. -/
theorem C7_witness :
    minePendingTransactionsPublic bcA 7 2 = some bcA ∧
    (bcA.pendingTransactions = [] → bcA = bcA) ∧
    (bcA.pendingTransactions ≠ [] → ∃ mined,
      bcA.chain = bcA.chain ++ [mined] ∧
      bcA.pendingTransactions = bcA.pendingTransactions.drop
        (min bcA.maxTransactionsPerBlock bcA.pendingTransactions.length)) :=
  C7_mine_noop_or_full bcA 7 2 bcA (by decide)

/-- C6 counterexample: two fresh ledgers built with identical constructor
    arguments but at different clock seconds carry genesis transactions
    that differ (in created_at, hence also in id), so genesis construction
    is not two-run deterministic. -/
theorem C6_counterexample :
    Blockchain.make 0 10 0 1 = some bcA ∧ Blockchain.make 0 10 1 1 = some bcB ∧
    genesisTransaction bcA ≠ genesisTransaction bcB :=
  ⟨by decide, by decide, by decide⟩

/-- C6 (amended): the genesis transaction of any fresh ledger is fully
    pinned by the construction-time clock second: sender SYSTEM, kind
    registration, the fixed descriptive payload, and id and created_at
    derived from that second - so two fresh ledgers constructed in the
    same second agree on every field whatever their constructor arguments,
    while ledgers constructed in different seconds differ in created_at
    and id. -/
theorem C6_genesis_pinned (d m : Nat) (now : Int) (fuel : Nat) (bc : Blockchain)
    (h : Blockchain.make d m now fuel = some bc) :
    genesisTransaction bc =
      some (Transaction.make "SYSTEM" TransactionType.USER_REGISTRATION genesisData now) := by
  simp only [Blockchain.make, createGenesisBlock] at h
  split at h
  · cases h
  next g hg =>
    injection h with hbc
    subst hbc
    obtain ⟨-, -, -, h4, -, -, -, -⟩ := mineBlockFuel_some _ _ _ hg
    rw [Block.make_transactions] at h4
    simp only [genesisTransaction]
    rw [h4]
    rfl

/-- Witness for the amended C6 at a concrete fresh ledger. -/
theorem C6_witness :
    genesisTransaction bcA =
      some (Transaction.make "SYSTEM" TransactionType.USER_REGISTRATION genesisData 0) :=
  C6_genesis_pinned 0 10 0 1 bcA (by decide)

/-- The validation loop from a given predecessor accepts exactly the lists
    in which every block is self-valid and linked to its predecessor. -/
theorem isChainValidFrom_iff (prev : Block) (l : List Block) :
    isChainValidFrom prev l = true ↔
    ∀ i (hi : i < l.length),
      (l.get ⟨i, hi⟩).isValid = true ∧
      (l.get ⟨i, hi⟩).previousHash =
        ((prev :: l).get ⟨i, by simp; omega⟩).hash := by
  induction l generalizing prev with
  | nil =>
      constructor
      · intro _ i hi
        exact absurd hi (Nat.not_lt_zero i)
      · intro _
        rfl
  | cons b rest ih =>
      simp only [isChainValidFrom, Bool.and_eq_true, beq_iff_eq]
      constructor
      · rintro ⟨⟨hb, hlink⟩, hrest⟩ i hi
        cases i with
        | zero => exact ⟨hb, hlink⟩
        | succ j => exact (ih b).mp hrest j (by simpa using hi)
      · intro hall
        refine ⟨⟨(hall 0 (by simp)).1, (hall 0 (by simp)).2⟩, (ih b).mpr ?_⟩
        intro j hj
        exact hall (j + 1) (by simpa using hj)

/-- C4: isChainValid returns true exactly when every block from index 1 on
    is self-valid and stores the previous block's hash; the genesis block
    itself is never re-verified, so a one-block chain always validates. -/
theorem C4_isChainValid_iff (bc : Blockchain) :
    bc.isChainValid = true ↔
    ∀ i, 0 < i → ∀ hi : i < bc.chain.length,
      (bc.chain.get ⟨i, hi⟩).isValid = true ∧
      (bc.chain.get ⟨i, hi⟩).previousHash =
        (bc.chain.get ⟨i - 1, by omega⟩).hash := by
  obtain ⟨chain, pending, d, r, m⟩ := bc
  cases chain with
  | nil =>
      constructor
      · intro _ i _ hi
        exact absurd hi (by simp at hi)
      · intro _
        rfl
  | cons g rest =>
      constructor
      · intro hv i hi0 hi
        obtain ⟨j, rfl⟩ : ∃ j, i = j + 1 := ⟨i - 1, by omega⟩
        exact (isChainValidFrom_iff g rest).mp hv j (by simpa using hi)
      · intro hall
        apply (isChainValidFrom_iff g rest).mpr
        intro j hj
        exact hall (j + 1) (by omega) (by simpa using hj)

/-- Witness for C4 at a concrete one-block ledger, where validation is
    vacuously true. -/
theorem C4_witness :
    bcA.isChainValid = true ↔
    ∀ i, 0 < i → ∀ hi : i < bcA.chain.length,
      (bcA.chain.get ⟨i, hi⟩).isValid = true ∧
      (bcA.chain.get ⟨i, hi⟩).previousHash =
        (bcA.chain.get ⟨i - 1, by omega⟩).hash :=
  C4_isChainValid_iff bcA

end Bitea
